import Mathlib

/-!
# api-irr: internal rate of return through companion-matrix eigenvalues

A shallow embedding of `resolver/resolver.go` and of the request handler in
`api/index.go`.

A `float64` is modelled as a rational number or one of the IEEE special values
(the two infinities and not-a-number).  The operations of `F64` are exact: they
do not round.  The namespace `Rounded` gives the operations that round their
result to the nearest `float64` value, and `GetIRR` over them.  The sign of zero
is not modelled; zero behaves as IEEE `+0`.

The eigenvalue routine of gonum (`mat.Eigen`) is an external library and is
taken as a parameter of the embedding.
-/

namespace ApiIrr

/-! ## float64 values in exact arithmetic -/

/-- A `float64` value: a rational number, plus or minus infinity, or not-a-number. -/
inductive F64 where
  | num (q : ℚ)
  | pinf
  | ninf
  | nan
deriving DecidableEq

namespace F64

/-- Unary minus. -/
def neg : F64 → F64
  | num a => num (-a)
  | pinf => ninf
  | ninf => pinf
  | nan => nan

/-- Subtraction `a - b`. -/
def sub : F64 → F64 → F64
  | nan, _ => nan
  | _, nan => nan
  | num a, num b => num (a - b)
  | num _, pinf => ninf
  | num _, ninf => pinf
  | pinf, pinf => nan
  | pinf, _ => pinf
  | ninf, ninf => nan
  | ninf, _ => ninf

/-- The infinity with the sign of the rational `a`, not-a-number when `a = 0`. -/
def signedInf (a : ℚ) : F64 :=
  if 0 < a then pinf else if a < 0 then ninf else nan

/-- Multiplication `a * b`. -/
def mul : F64 → F64 → F64
  | nan, _ => nan
  | _, nan => nan
  | num a, num b => num (a * b)
  | num a, pinf => signedInf a
  | num a, ninf => signedInf (-a)
  | pinf, num b => signedInf b
  | ninf, num b => signedInf (-b)
  | pinf, pinf => pinf
  | pinf, ninf => ninf
  | ninf, pinf => ninf
  | ninf, ninf => pinf

/-- Division `a / b`; a finite value divided by zero is an infinity, `0 / 0` is not-a-number. -/
def div : F64 → F64 → F64
  | nan, _ => nan
  | _, nan => nan
  | num a, num b => if b = 0 then signedInf a else num (a / b)
  | num _, pinf => num 0
  | num _, ninf => num 0
  | pinf, num b => if b < 0 then ninf else pinf
  | ninf, num b => if b < 0 then pinf else ninf
  | pinf, pinf => nan
  | pinf, ninf => nan
  | ninf, pinf => nan
  | ninf, ninf => nan

/-- Absolute value, `math.Abs`. -/
def abs : F64 → F64
  | num a => num |a|
  | pinf => pinf
  | ninf => pinf
  | nan => nan

/-- The comparison `a == b`; not-a-number equals nothing. -/
def eq : F64 → F64 → Bool
  | num a, num b => decide (a = b)
  | pinf, pinf => true
  | ninf, ninf => true
  | _, _ => false

/-- The comparison `a < b`; false as soon as one side is not-a-number. -/
def lt : F64 → F64 → Bool
  | num a, num b => decide (a < b)
  | num _, pinf => true
  | ninf, num _ => true
  | ninf, pinf => true
  | _, _ => false

/-- The comparison `a >= b`; false as soon as one side is not-a-number. -/
def ge : F64 → F64 → Bool
  | num a, num b => decide (b ≤ a)
  | pinf, num _ => true
  | pinf, pinf => true
  | pinf, ninf => true
  | num _, ninf => true
  | ninf, ninf => true
  | _, _ => false

/-- The test `math.IsNaN`. -/
def isNaN : F64 → Bool
  | nan => true
  | _ => false

end F64

open F64 (num pinf ninf nan)

/-! ## resolver/resolver.go -/

/-- A `complex128` value: real and imaginary part. -/
structure Complex128 where
  re : F64
  im : F64
deriving DecidableEq

/-- A dense matrix of gonum: its dimensions and its entries, addressed by row and column. -/
structure Dense where
  rows : Nat
  cols : Nat
  entry : Nat → Nat → F64

/-- The zero matrix that `mat.NewDense(r, c, nil)` allocates. -/
def Dense.zero (r c : Nat) : Dense :=
  ⟨r, c, fun _ _ => num 0⟩

/-- The update `m.Set(i, j, v)`. -/
def Dense.set (m : Dense) (i j : Nat) (v : F64) : Dense :=
  ⟨m.rows, m.cols, fun a b => if a = i ∧ b = j then v else m.entry a b⟩

/-- The eigenvalue routine of gonum, `Factorize` followed by `Values`: on success the
eigenvalues of the matrix, `none` when `Factorize` reports failure. -/
abbrev EigenSolver := Dense → Option (List Complex128)

/-- What a call produces: a result, a returned error, or a run-time panic. -/
inductive Outcome (α : Type) where
  | ok (a : α)
  | error (msg : String)
  | panicked
deriving DecidableEq

/-- The companion matrix that `findPolynomialRoots` fills in for `n = len(coeffs) - 1`:
first the ones below the diagonal, then the last column. -/
def companion (coeffs : List F64) (n : Nat) : Dense :=
  let m0 := Dense.zero n n
  let m1 := (List.range' 1 (n - 1)).foldl (fun m i => m.set i (i - 1) (num 1)) m0
  (List.range n).foldl
    (fun m i => m.set i (n - 1)
      (F64.div (F64.neg (coeffs.getD i (num 0))) (coeffs.getD n (num 0)))) m1

/-- The function `findPolynomialRoots`. `mat.NewDense` panics on a dimension that is not
positive, which happens for fewer than two coefficients. -/
def findPolynomialRoots (eig : EigenSolver) (coeffs : List F64) :
    Outcome (List Complex128) :=
  let n : Int := (coeffs.length : Int) - 1
  if n ≤ 0 then Outcome.panicked
  else
    match eig (companion coeffs n.toNat) with
    | none => Outcome.error "eigenvalue decomposition failed"
    | some values => Outcome.ok values

/-- Addition on `int`, which wraps around at 64 bits. -/
def wrapInt (x : Int) : Int :=
  (x + 2 ^ 63) % 2 ^ 64 - 2 ^ 63

/-- The loop of `RealRoots` that keeps the real part of each root whose imaginary part
has absolute value equal to zero. -/
def keepReal (roots : List Complex128) : List F64 :=
  roots.foldl
    (fun realRoots root =>
      if F64.eq (F64.abs root.im) (num 0) then realRoots ++ [root.re] else realRoots) []

/-- The function `RealRoots`; its parameter `variables` is written `vars`. -/
def RealRoots (eig : EigenSolver) (degree : Int) (vars : List F64) :
    Outcome (List F64) :=
  if wrapInt (degree + 1) ≠ (vars.length : Int) then
    Outcome.error "the number of variables must be degree + 1"
  else
    match findPolynomialRoots eig vars with
    | Outcome.error msg => Outcome.error msg
    | Outcome.panicked => Outcome.panicked
    | Outcome.ok roots => Outcome.ok (keepReal roots)

/-- The function `GetIRR`. -/
def GetIRR (v : F64) : F64 :=
  if F64.eq v (num 0) then nan
  else
    let d := F64.sub (num 1) v
    let irr := F64.div d (F64.sub (num 1) d)
    F64.mul irr (num 100)

/-! ## GetIRR in float64 arithmetic -/

namespace Rounded

/-- The integer nearest to `q`, the even one of the two when `q` lies halfway. -/
def roundHalfEven (q : ℚ) : ℤ :=
  if q - ⌊q⌋ < 1 / 2 then ⌊q⌋
  else if 1 / 2 < q - ⌊q⌋ then ⌊q⌋ + 1
  else if ⌊q⌋ % 2 = 0 then ⌊q⌋ else ⌊q⌋ + 1

/-- The exponent of the spacing of the `float64` values around `q`: 52 below the binary
exponent of `q`, which is at least -1022. -/
def ulpExponent (q : ℚ) : ℤ :=
  max (Int.log 2 |q|) (-1022) - 52

/-- The `float64` value of a rational: round to nearest with 53 significant bits, ties to
even, gradual underflow, and infinity from `2 ^ 1024` on. -/
def toFloat64 (q : ℚ) : F64 :=
  let r : ℚ := (roundHalfEven (q / 2 ^ ulpExponent q) : ℚ) * 2 ^ ulpExponent q
  if 2 ^ 1024 ≤ r then pinf else if r ≤ -2 ^ 1024 then ninf else num r

/-- The rounding of the exact result of an operation. -/
def rounded : F64 → F64
  | num q => toFloat64 q
  | x => x

/-- The `float64` subtraction `a - b`. -/
def sub (a b : F64) : F64 :=
  rounded (F64.sub a b)

/-- The `float64` division `a / b`. -/
def div (a b : F64) : F64 :=
  rounded (F64.div a b)

/-- The `float64` multiplication `a * b`. -/
def mul (a b : F64) : F64 :=
  rounded (F64.mul a b)

/-- The function `GetIRR` with each operation rounded to `float64`. -/
def GetIRR (v : F64) : F64 :=
  if F64.eq v (num 0) then nan
  else
    let d := sub (num 1) v
    let irr := div d (sub (num 1) d)
    mul irr (num 100)

/-- The denominator `1 - d` of the division in `GetIRR`, where `d = 1 - v`, in `float64`. -/
def irrDenominator (v : F64) : F64 :=
  sub (num 1) (sub (num 1) v)

end Rounded

/-! ## api/index.go -/

/-- The request body after JSON binding. -/
structure IRRRequest where
  Spending : List F64
  Income : List F64
  Code : String

/-- The response envelope. -/
structure IRRResponse where
  Status : Int
  Irr : F64
  Error : String
deriving DecidableEq

/-- What the handler writes: an HTTP status with either a bare error message
(`gin.H`) or a response envelope. -/
inductive Reply where
  | errorH (code : Nat) (error : String)
  | envelope (code : Nat) (body : IRRResponse)
deriving DecidableEq

/-- The loop of `resolveIRR` that builds `diff`, the income minus the spending of each of
the first `length` periods. -/
def cashDiff (spending income : List F64) (length : Nat) : List F64 :=
  (List.range length).foldl
    (fun diff i => diff ++ [F64.sub (income.getD i (num 0)) (spending.getD i (num 0))]) []

/-- The loop of `resolveIRR` that picks `v`: the zero value of `float64` unless a root
at least 0 and below 1 is met, in which case the scan stops. -/
def selectRoot : List F64 → F64
  | [] => num 0
  | root :: rest =>
    if F64.ge root (num 0) && F64.lt root (num 1) then root else selectRoot rest

/-- The part of `resolveIRR` after the roots are known: selection, `GetIRR`, and the
response chosen by `math.IsNaN`. -/
def respondIRR (roots : List F64) : Reply :=
  let v := selectRoot roots
  let irr := GetIRR v
  if !F64.isNaN irr then Reply.envelope 200 ⟨0, irr, ""⟩
  else Reply.envelope 200 ⟨1, nan, "IRR calculation resulted in NaN."⟩

/-- The handler `resolveIRR`, from the bound request on. -/
def resolveIRR (eig : EigenSolver) (request : IRRRequest) : Outcome Reply :=
  if request.Code ≠ "resolve" then
    Outcome.ok (Reply.errorH 400 "Your request is rejected.")
  else
    let length := request.Spending.length
    if length ≠ request.Income.length then
      Outcome.ok (Reply.errorH 400 "Number of income and outcome is not equal.")
    else if length < 2 then
      Outcome.ok (Reply.errorH 400 "Number of income and outcome is less than 2.")
    else
      let diff := cashDiff request.Spending request.Income length
      match RealRoots eig ((length : Int) - 1) diff with
      | Outcome.error msg => Outcome.ok (Reply.envelope 500 ⟨1, num 0, msg⟩)
      | Outcome.panicked => Outcome.panicked
      | Outcome.ok roots => Outcome.ok (respondIRR roots)

/-- The extraction of the rate from the real roots: selection in `resolveIRR` followed
by `GetIRR`. -/
def extractIRR (roots : List F64) : F64 :=
  GetIRR (selectRoot roots)

/-! ## Vocabulary of the statements -/

/-- A value lies in the interval from 0 (included) to 1 (excluded). -/
def inUnitInterval : F64 → Bool
  | num q => decide (0 ≤ q ∧ q < 1)
  | _ => false

/-- The value `c[0] + c[1]*x + ... ` of the polynomial with coefficient list `c` at `x`. -/
def polyEval (c : List ℚ) (x : ℚ) : ℚ :=
  ∑ i in Finset.range c.length, c.getD i 0 * x ^ i

/-- The net present value of the cash flows `c` at the rate `rate`: the flow of period
`i` is discounted by `(1 + rate) ^ i`. -/
def netPresentValue (c : List ℚ) (rate : ℚ) : ℚ :=
  ∑ i in Finset.range c.length, c.getD i 0 / (1 + rate) ^ i

/-- The rational number a finite `float64` value stands for; 0 for the special values. -/
def F64.toRat : F64 → ℚ
  | num q => q
  | _ => 0

/-- The square part of size `n` of a dense matrix, read as a matrix of rationals. -/
def Dense.toMatrix (m : Dense) (n : ℕ) : Matrix (Fin n) (Fin n) ℚ :=
  Matrix.of fun i j => F64.toRat (m.entry i j)

/-- The companion shape in the words of the specification: ones below the diagonal, last
column `-a i`, zeros elsewhere. -/
def companionOf {R : Type} [Ring R] (n : ℕ) (a : ℕ → R) : Matrix (Fin n) (Fin n) R :=
  Matrix.of fun i j => if (j : ℕ) + 1 = n then -a i else if (i : ℕ) = j + 1 then 1 else 0

/-! ## Selection and rate -/

theorem select_test_eq (x : F64) :
    (F64.ge x (num 0) && F64.lt x (num 1)) = inUnitInterval x := by
  cases x <;> simp [F64.ge, F64.lt, inUnitInterval, Bool.decide_and]

theorem selectRoot_eq_find (roots : List F64) :
    selectRoot roots = (roots.find? inUnitInterval).getD (num 0) := by
  induction roots with
  | nil => rfl
  | cons x rest ih =>
    rw [selectRoot, select_test_eq, List.find?_cons]
    cases hx : inUnitInterval x <;> simp [ih]

theorem inUnitInterval_num {x : F64} (h : inUnitInterval x = true) :
    ∃ q : ℚ, x = num q ∧ 0 ≤ q ∧ q < 1 := by
  cases x with
  | num q => exact ⟨q, rfl, by simpa [inUnitInterval] using h⟩
  | pinf => simp [inUnitInterval] at h
  | ninf => simp [inUnitInterval] at h
  | nan => simp [inUnitInterval] at h

theorem GetIRR_num (v : ℚ) (hv : v ≠ 0) :
    GetIRR (num v) = num ((1 - v) / (1 - (1 - v)) * 100) := by
  have h : (1 : ℚ) - (1 - v) ≠ 0 := by simpa using hv
  simp [GetIRR, F64.eq, F64.sub, F64.div, F64.mul, hv, h]

theorem GetIRR_zero : GetIRR (num 0) = nan := by
  simp [GetIRR, F64.eq]

theorem selectRoot_cases (roots : List F64) :
    (roots.find? inUnitInterval = none ∧ selectRoot roots = num 0) ∨
    (∃ q : ℚ, roots.find? inUnitInterval = some (num q) ∧ selectRoot roots = num q ∧
      0 ≤ q ∧ q < 1) := by
  rw [selectRoot_eq_find]
  cases h : roots.find? inUnitInterval with
  | none => left; simp
  | some x =>
    right
    obtain ⟨q, rfl, hq⟩ := inUnitInterval_num (List.find?_some h)
    exact ⟨q, rfl, rfl, hq⟩

/-! ## Claims on selection and rate -/

/-- C2: the selection of `resolveIRR` returns the first element of the list, in list
order, that lies in [0, 1), and 0 when the list has no such element; elements before
the first qualifying one are skipped and elements after it are ignored. -/
theorem selectRoot_first_in_unit (roots : List F64) :
    selectRoot roots = (roots.find? inUnitInterval).getD (num 0) ∧
    (∀ (before after : List F64) (v : F64), roots = before ++ v :: after →
      (∀ x ∈ before, inUnitInterval x = false) → inUnitInterval v = true →
      selectRoot roots = v) ∧
    ((∀ x ∈ roots, inUnitInterval x = false) → selectRoot roots = num 0) := by
  refine ⟨selectRoot_eq_find roots, ?_, ?_⟩
  · intro before after v hroots hbefore hv
    subst hroots
    rw [selectRoot_eq_find]
    induction before with
    | nil => simp [List.find?_cons, hv]
    | cons x rest ih =>
      have hx : inUnitInterval x = false := hbefore x (List.mem_cons_self _ _)
      have hrest : ∀ y ∈ rest, inUnitInterval y = false :=
        fun y hy => hbefore y (List.mem_cons_of_mem _ hy)
      simpa [List.find?_cons, hx] using ih hrest
  · intro hall
    rw [selectRoot_eq_find]
    have : roots.find? inUnitInterval = none := by
      rw [List.find?_eq_none]
      intro x hx
      simp [hall x hx]
    simp [this]

/-- C2, at the list [1.2, 0.25, 0.5]: 1.2 is skipped and 0.25 is preferred to 0.5. -/
theorem selectRoot_first_in_unit_witness :
    selectRoot [num (6 / 5), num (1 / 4), num (1 / 2)] = num (1 / 4) :=
  (selectRoot_first_in_unit [num (6 / 5), num (1 / 4), num (1 / 2)]).2.1
    [num (6 / 5)] [num (1 / 2)] (num (1 / 4)) rfl
    (by intro x hx; rw [List.mem_singleton.mp hx]; simp [inUnitInterval]; norm_num)
    (by simp [inUnitInterval]; norm_num)

/-- C3: when the first element of the list in [0, 1) is a number `v` other than 0, the
extracted rate is `(d / (1 - d)) * 100` with `d = 1 - v`, which is `((1 - v) / v) * 100`;
the list [0.5] gives 100 and the list [1.2, 0.25] gives 300. -/
theorem extractIRR_formula (roots : List F64) (v : ℚ)
    (hfirst : roots.find? inUnitInterval = some (num v)) (hv : v ≠ 0) :
    extractIRR roots = num ((1 - v) / (1 - (1 - v)) * 100) ∧
    extractIRR roots = num ((1 - v) / v * 100) ∧
    extractIRR [num (1 / 2)] = num 100 ∧
    extractIRR [num (6 / 5), num (1 / 4)] = num 300 := by
  have hsel : selectRoot roots = num v := by rw [selectRoot_eq_find, hfirst]; rfl
  have hform : extractIRR roots = num ((1 - v) / (1 - (1 - v)) * 100) := by
    rw [extractIRR, hsel, GetIRR_num v hv]
  refine ⟨hform, ?_, ?_, ?_⟩
  · rw [hform]; congr 2; ring
  · have h : selectRoot [num (1 / 2)] = num (1 / 2) := by
      rw [selectRoot_eq_find]; simp [List.find?_cons, inUnitInterval]; norm_num
    rw [extractIRR, h, GetIRR_num _ (by norm_num)]
    congr 1; norm_num
  · have h : selectRoot [num (6 / 5), num (1 / 4)] = num (1 / 4) := by
      rw [selectRoot_eq_find]; simp [List.find?_cons, inUnitInterval]; norm_num
    rw [extractIRR, h, GetIRR_num _ (by norm_num)]
    congr 1; norm_num

/-- C3, at the list [1.2, 0.25]. -/
theorem extractIRR_formula_witness :
    extractIRR [num (6 / 5), num (1 / 4)] = num ((1 - 1 / 4) / (1 / 4) * 100) :=
  (extractIRR_formula [num (6 / 5), num (1 / 4)] (1 / 4)
    (by simp [List.find?_cons, inUnitInterval]; norm_num) (by norm_num)).2.1

/-- C4: the extracted rate is not-a-number exactly when the list has no element in
[0, 1) or its first element in [0, 1) is 0; the empty list and the list [0] give
not-a-number. The extraction is a total function: it raises nothing. -/
theorem extractIRR_nan_iff (roots : List F64) :
    (extractIRR roots = nan ↔
      (roots.find? inUnitInterval = none ∨ roots.find? inUnitInterval = some (num 0))) ∧
    (F64.isNaN (extractIRR roots) = true ↔ extractIRR roots = nan) ∧
    extractIRR [] = nan ∧ extractIRR [num 0] = nan := by
  refine ⟨?_, ?_, ?_, ?_⟩
  · rcases selectRoot_cases roots with ⟨hnone, hsel⟩ | ⟨q, hsome, hsel, _, _⟩
    · simp [extractIRR, hsel, GetIRR_zero, hnone]
    · by_cases hq : q = 0
      · subst hq
        simp [extractIRR, hsel, GetIRR_zero, hsome]
      · simp [extractIRR, hsel, GetIRR_num q hq, hsome, hq]
  · cases h : extractIRR roots <;> simp [F64.isNaN]
  · simp [extractIRR, selectRoot, GetIRR_zero]
  · simp [extractIRR, selectRoot, F64.ge, F64.lt, GetIRR_zero]

/-- C8: for a discount factor `v` strictly between 0 and 1, `GetIRR` returns a positive
number `irr` whose rate `irr / 100` satisfies `v = 1 / (1 + rate)`; hence `v` is a root of
the polynomial of the net cash flows exactly when their net present value at that rate
is zero. -/
theorem GetIRR_inverts_discount (v : ℚ) (c : List ℚ) (h0 : 0 < v) (h1 : v < 1) :
    ∃ irr : ℚ, GetIRR (num v) = num irr ∧ 0 < irr ∧
      v = 1 / (1 + irr / 100) ∧
      (polyEval c v = 0 ↔ netPresentValue c (irr / 100) = 0) := by
  have hv : v ≠ 0 := ne_of_gt h0
  have hden : (1 : ℚ) - (1 - v) = v := by ring
  have hrate : 1 + (1 - v) / (1 - (1 - v)) * 100 / 100 = v⁻¹ := by
    rw [hden]
    field_simp
    ring
  refine ⟨(1 - v) / (1 - (1 - v)) * 100, GetIRR_num v hv, ?_, ?_, ?_⟩
  · rw [hden]
    exact mul_pos (div_pos (by linarith) h0) (by norm_num)
  · rw [hrate]; simp
  · have heq : polyEval c v = netPresentValue c ((1 - v) / (1 - (1 - v)) * 100 / 100) := by
      unfold polyEval netPresentValue
      refine Finset.sum_congr rfl fun i _ => ?_
      rw [hrate, inv_pow, div_inv_eq_mul]
    rw [heq]

/-- C8, at the discount factor 10/11 and the cash flows -100, 110. -/
theorem GetIRR_inverts_discount_witness :
    ∃ irr : ℚ, GetIRR (num (10 / 11)) = num irr ∧ 0 < irr ∧
      (10 / 11 : ℚ) = 1 / (1 + irr / 100) ∧
      (polyEval [-100, 110] (10 / 11) = 0 ↔ netPresentValue [-100, 110] (irr / 100) = 0) :=
  GetIRR_inverts_discount (10 / 11) [-100, 110] (by norm_num) (by norm_num)

/-! ## Loops as list operations -/

theorem foldl_append_singleton {α β : Type} (f : α → β) (l : List α) (init : List β) :
    l.foldl (fun acc x => acc ++ [f x]) init = init ++ l.map f := by
  induction l generalizing init with
  | nil => simp
  | cons x rest ih => simp [List.foldl_cons, ih]

theorem cashDiff_eq_map (spending income : List F64) (length : Nat) :
    cashDiff spending income length =
      (List.range length).map
        (fun i => F64.sub (income.getD i (num 0)) (spending.getD i (num 0))) := by
  unfold cashDiff
  rw [foldl_append_singleton]
  simp

theorem abs_eq_zero_iff (x : F64) : F64.eq (F64.abs x) (num 0) = true ↔ x = num 0 := by
  cases x <;> simp [F64.abs, F64.eq]

theorem keepReal_foldl (roots : List Complex128) (init : List F64) :
    roots.foldl
      (fun realRoots root =>
        if F64.eq (F64.abs root.im) (num 0) then realRoots ++ [root.re] else realRoots) init
      = init ++ (roots.filter (fun z => decide (z.im = num 0))).map Complex128.re := by
  induction roots generalizing init with
  | nil => simp
  | cons z rest ih =>
    rw [List.foldl_cons, ih, List.filter_cons]
    by_cases hz : z.im = num 0
    · simp [hz, F64.abs, F64.eq]
    · have hne : ¬ (F64.eq (F64.abs z.im) (num 0) = true) := by
        rw [abs_eq_zero_iff]; exact hz
      simp [hz, hne]

theorem keepReal_eq_filter (roots : List Complex128) :
    keepReal roots = (roots.filter (fun z => decide (z.im = num 0))).map Complex128.re := by
  unfold keepReal
  rw [keepReal_foldl]
  simp

theorem wrapInt_of_range (x : Int) (hlo : -2 ^ 63 ≤ x) (hhi : x < 2 ^ 63) : wrapInt x = x := by
  unfold wrapInt
  omega

theorem wrapInt_overflow : wrapInt (2 ^ 63) = -2 ^ 63 := by
  unfold wrapInt
  norm_num

theorem wrapInt_succ_ne_iff (degree len : Int) (hlo : -2 ^ 63 ≤ degree)
    (hhi : degree < 2 ^ 63) (h0 : 0 ≤ len) (hlen : len < 2 ^ 63) :
    wrapInt (degree + 1) ≠ len ↔ len ≠ degree + 1 := by
  by_cases hmax : degree + 1 < 2 ^ 63
  · rw [wrapInt_of_range _ (by omega) hmax]
    exact ne_comm
  · have hdeg : degree + 1 = 2 ^ 63 := by omega
    rw [hdeg, wrapInt_overflow]
    constructor <;> intro _ <;> omega

theorem findPolynomialRoots_error (eig : EigenSolver) (coeffs : List F64) (msg : String)
    (h : findPolynomialRoots eig coeffs = Outcome.error msg) :
    msg = "eigenvalue decomposition failed" := by
  unfold findPolynomialRoots at h
  simp only at h
  split at h
  · cases h
  · split at h
    · injection h with h
      exact h.symm
    · cases h

theorem RealRoots_of_ok (eig : EigenSolver) (degree : Int) (vars : List F64)
    (E : List Complex128) (hshape : (vars.length : Int) = degree + 1)
    (hlen : (vars.length : Int) < 2 ^ 63)
    (hE : findPolynomialRoots eig vars = Outcome.ok E) :
    RealRoots eig degree vars = Outcome.ok (keepReal E) := by
  have hw : ¬ wrapInt (degree + 1) ≠ (vars.length : Int) := by
    rw [wrapInt_of_range (degree + 1) (by omega) (by omega)]
    exact fun h => h hshape.symm
  unfold RealRoots
  rw [if_neg hw, hE]

/-! ## The entries of the companion matrix -/

theorem foldl_set_entry (col : Nat → Nat) (val : Nat → F64) (l : List Nat) (m0 : Dense)
    (a b : Nat) :
    (l.foldl (fun m i => m.set i (col i) (val i)) m0).entry a b =
      if a ∈ l ∧ b = col a then val a else m0.entry a b := by
  induction l generalizing m0 with
  | nil => simp
  | cons x rest ih =>
    rw [List.foldl_cons, ih]
    by_cases hrest : a ∈ rest ∧ b = col a
    · have hall : a ∈ x :: rest ∧ b = col a := ⟨List.mem_cons_of_mem _ hrest.1, hrest.2⟩
      rw [if_pos hrest, if_pos hall]
    · rw [if_neg hrest]
      by_cases hx : a = x ∧ b = col x
      · have hall : a ∈ x :: rest ∧ b = col a := by
          refine ⟨by rw [hx.1]; exact List.mem_cons_self _ _, ?_⟩
          rw [hx.2, hx.1]
        rw [if_pos hall]
        simp [Dense.set, hx.1, hx.2]
      · have hall : ¬ (a ∈ x :: rest ∧ b = col a) := by
          rintro ⟨hmem, hb⟩
          rcases List.mem_cons.mp hmem with h | h
          · exact hx ⟨h, by rw [hb, h]⟩
          · exact hrest ⟨h, hb⟩
        rw [if_neg hall]
        simp only [Dense.set]
        rw [if_neg hx]

theorem foldl_set_rows (col : Nat → Nat) (val : Nat → F64) (l : List Nat) (m0 : Dense) :
    (l.foldl (fun m i => m.set i (col i) (val i)) m0).rows = m0.rows ∧
    (l.foldl (fun m i => m.set i (col i) (val i)) m0).cols = m0.cols := by
  induction l generalizing m0 with
  | nil => simp
  | cons x rest ih =>
    rw [List.foldl_cons]
    exact ih _

theorem companion_rows (coeffs : List F64) (n : Nat) : (companion coeffs n).rows = n := by
  unfold companion
  simp only
  rw [(foldl_set_rows (fun _ => n - 1)
    (fun i => F64.div (F64.neg (coeffs.getD i (num 0))) (coeffs.getD n (num 0))) _ _).1,
    (foldl_set_rows (fun i => i - 1) (fun _ => num 1) _ _).1]
  rfl

theorem companion_cols (coeffs : List F64) (n : Nat) : (companion coeffs n).cols = n := by
  unfold companion
  simp only
  rw [(foldl_set_rows (fun _ => n - 1)
    (fun i => F64.div (F64.neg (coeffs.getD i (num 0))) (coeffs.getD n (num 0))) _ _).2,
    (foldl_set_rows (fun i => i - 1) (fun _ => num 1) _ _).2]
  rfl

theorem companion_entry (coeffs : List F64) (n a b : Nat) :
    (companion coeffs n).entry a b =
      if a < n ∧ b = n - 1 then
        F64.div (F64.neg (coeffs.getD a (num 0))) (coeffs.getD n (num 0))
      else if (1 ≤ a ∧ a < n) ∧ b = a - 1 then num 1
      else num 0 := by
  unfold companion
  simp only
  rw [foldl_set_entry (fun _ => n - 1)
    (fun i => F64.div (F64.neg (coeffs.getD i (num 0))) (coeffs.getD n (num 0)))]
  rw [foldl_set_entry (fun i => i - 1) (fun _ => num 1)]
  have h1 : a ∈ List.range n ↔ a < n := List.mem_range
  have h2 : a ∈ List.range' 1 (n - 1) ↔ (1 ≤ a ∧ a < n) := by
    rw [List.mem_range'_1]
    omega
  simp only [h1, h2, Dense.zero]

/-! ## Claims on the resolver and the handler -/

/-- C5: for a degree that is an `int` and a coefficient list of a length that is an
`int`, `RealRoots` returns the error "the number of variables must be degree + 1", which
carries no roots, exactly when the length differs from `degree + 1`; when the lengths
agree, every error it returns is the failure of the eigenvalue decomposition. -/
theorem RealRoots_shape_error (eig : EigenSolver) (degree : Int) (vars : List F64)
    (hlo : -2 ^ 63 ≤ degree) (hhi : degree < 2 ^ 63) (hlen : (vars.length : Int) < 2 ^ 63) :
    (RealRoots eig degree vars = Outcome.error "the number of variables must be degree + 1" ↔
      (vars.length : Int) ≠ degree + 1) ∧
    ((vars.length : Int) = degree + 1 → ∀ msg : String,
      RealRoots eig degree vars = Outcome.error msg →
        msg = "eigenvalue decomposition failed") := by
  have hiff := wrapInt_succ_ne_iff degree vars.length hlo hhi (Int.natCast_nonneg _) hlen
  have hagree : (vars.length : Int) = degree + 1 → ∀ msg : String,
      RealRoots eig degree vars = Outcome.error msg →
        msg = "eigenvalue decomposition failed" := by
    intro hshape msg hmsg
    have hw : ¬ wrapInt (degree + 1) ≠ (vars.length : Int) := by
      rw [hiff]; exact fun h => h hshape
    unfold RealRoots at hmsg
    rw [if_neg hw] at hmsg
    cases hf : findPolynomialRoots eig vars with
    | ok roots => rw [hf] at hmsg; cases hmsg
    | panicked => rw [hf] at hmsg; cases hmsg
    | error e =>
      rw [hf] at hmsg
      have hmsg2 : e = msg := by injection hmsg
      rw [← hmsg2]
      exact findPolynomialRoots_error eig vars e hf
  refine ⟨⟨?_, ?_⟩, hagree⟩
  · intro herr hshape
    have := hagree hshape _ herr
    exact absurd this (by decide)
  · intro hne
    have hw : wrapInt (degree + 1) ≠ (vars.length : Int) := hiff.mpr hne
    unfold RealRoots
    rw [if_pos hw]

/-- C5, at degree 1 with the three coefficients 1, 2, 3 and a solver that always fails. -/
theorem RealRoots_shape_error_witness :
    RealRoots (fun _ => none) 1 [num 1, num 2, num 3]
      = Outcome.error "the number of variables must be degree + 1" :=
  (RealRoots_shape_error (fun _ => none) 1 [num 1, num 2, num 3]
    (by norm_num) (by norm_num) (by norm_num)).1.mpr (by norm_num)

/-- C6: on a shape-correct input for which the eigenvalue routine succeeds with the
sequence `E`, `RealRoots` returns the real parts of exactly those elements of `E` whose
imaginary part is zero, in the order of `E`, duplicates kept. -/
theorem RealRoots_keeps_zero_imaginary (eig : EigenSolver) (degree : Int) (vars : List F64)
    (E : List Complex128) (hshape : (vars.length : Int) = degree + 1)
    (hlen : (vars.length : Int) < 2 ^ 63)
    (hE : findPolynomialRoots eig vars = Outcome.ok E) :
    RealRoots eig degree vars =
      Outcome.ok ((E.filter (fun z => decide (z.im = num 0))).map Complex128.re) := by
  rw [RealRoots_of_ok eig degree vars E hshape hlen hE]
  unfold keepReal
  rw [keepReal_foldl, List.nil_append]

/-- C6, at the coefficients 9, -6, 10, -6, 1 of `(x - 3)^2 (x^2 + 1)` and a routine that
answers 3, i, -i, 3: the two complex values are dropped and 3 stays twice. -/
theorem RealRoots_keeps_zero_imaginary_witness :
    RealRoots
        (fun _ => some [⟨num 3, num 0⟩, ⟨num 0, num 1⟩, ⟨num 0, num (-1)⟩, ⟨num 3, num 0⟩])
        4 [num 9, num (-6), num 10, num (-6), num 1]
      = Outcome.ok [num 3, num 3] :=
  (RealRoots_keeps_zero_imaginary _ 4 [num 9, num (-6), num 10, num (-6), num 1]
    [⟨num 3, num 0⟩, ⟨num 0, num 1⟩, ⟨num 0, num (-1)⟩, ⟨num 3, num 0⟩]
    (by norm_num) (by norm_num) (by simp [findPolynomialRoots])).trans
    (by simp [List.filter_cons])

theorem resolveIRR_valid (eig : EigenSolver) (request : IRRRequest) (degree : Int)
    (diff : List F64) (hcode : request.Code = "resolve")
    (hlen : request.Spending.length = request.Income.length)
    (h2 : 2 ≤ request.Spending.length)
    (hdegree : (request.Spending.length : Int) - 1 = degree)
    (hdiff : cashDiff request.Spending request.Income request.Spending.length = diff) :
    resolveIRR eig request =
      (match RealRoots eig degree diff with
        | Outcome.error msg => Outcome.ok (Reply.envelope 500 ⟨1, num 0, msg⟩)
        | Outcome.panicked => Outcome.panicked
        | Outcome.ok roots => Outcome.ok (respondIRR roots)) := by
  have h2' : ¬ request.Spending.length < 2 := by omega
  subst hdegree hdiff
  simp [resolveIRR, hcode, hlen.symm, h2']

theorem respondIRR_num (roots : List F64) (irr : ℚ)
    (h : GetIRR (selectRoot roots) = num irr) :
    respondIRR roots = Reply.envelope 200 ⟨0, num irr, ""⟩ := by
  unfold respondIRR
  simp only
  rw [h]
  rfl

/-- C9, refuted as stated: the request with spending 1, 1 and income 2, 1 passes the
validation of `resolveIRR`, its coefficient list 1, 0 ends in zero, the entry of the
companion matrix is the quotient -1 / 0, and the handler does reach the eigenvalue
routine with it. -/
theorem zero_leading_difference_passes :
    (IRRRequest.mk [num 1, num 1] [num 2, num 1] "resolve").Code = "resolve" ∧
    [num 1, num 1].length = [num 2, num 1].length ∧ 2 ≤ [num 1, num 1].length ∧
    cashDiff [num 1, num 1] [num 2, num 1] 2 = [num 1, num 0] ∧
    (companion [num 1, num 0] 1).entry 0 0 = F64.div (F64.neg (num 1)) (num 0) ∧
    F64.div (F64.neg (num 1)) (num 0) = ninf ∧
    resolveIRR (fun m => if m.entry 0 0 = ninf then none else some [])
        (IRRRequest.mk [num 1, num 1] [num 2, num 1] "resolve")
      = Outcome.ok (Reply.envelope 500 ⟨1, num 0, "eigenvalue decomposition failed"⟩) := by
  have hdiff : cashDiff [num 1, num 1] [num 2, num 1] 2 = [num 1, num 0] := by
    simp [cashDiff_eq_map, List.range_succ, F64.sub]
    norm_num
  have hentry : (companion [num 1, num 0] 1).entry 0 0
      = F64.div (F64.neg (num 1)) (num 0) := by
    rw [companion_entry]
    simp
  have hinf : F64.div (F64.neg (num 1)) (num 0) = ninf := by
    simp [F64.neg, F64.div, F64.signedInf]
  refine ⟨rfl, rfl, by decide, hdiff, hentry, hinf, ?_⟩
  simp [resolveIRR, hdiff, RealRoots, wrapInt, findPolynomialRoots, hentry, hinf]

/-- C9, amended: for a request that passes the validation of `resolveIRR` and whose last
spending and income are the numbers `s` and `r`, the handler hands `RealRoots` the list
of the `n` differences, whose last element is `r - s`; that element is non-zero exactly
when `r` differs from `s`, and nothing in the handler excludes `r = s`. -/
theorem last_difference_nonzero_iff (eig : EigenSolver) (request : IRRRequest) (s r : ℚ)
    (hcode : request.Code = "resolve")
    (hlen : request.Spending.length = request.Income.length)
    (h2 : 2 ≤ request.Spending.length)
    (hs : request.Spending.getD (request.Spending.length - 1) (num 0) = num s)
    (hr : request.Income.getD (request.Spending.length - 1) (num 0) = num r) :
    resolveIRR eig request =
      (match RealRoots eig ((request.Spending.length : Int) - 1)
          (cashDiff request.Spending request.Income request.Spending.length) with
        | Outcome.error msg => Outcome.ok (Reply.envelope 500 ⟨1, num 0, msg⟩)
        | Outcome.panicked => Outcome.panicked
        | Outcome.ok roots => Outcome.ok (respondIRR roots)) ∧
    (cashDiff request.Spending request.Income request.Spending.length).length
      = request.Spending.length ∧
    (cashDiff request.Spending request.Income request.Spending.length).getD
      (request.Spending.length - 1) (num 0) = num (r - s) ∧
    (F64.eq ((cashDiff request.Spending request.Income request.Spending.length).getD
      (request.Spending.length - 1) (num 0)) (num 0) = false ↔ r ≠ s) := by
  have hlast : (cashDiff request.Spending request.Income request.Spending.length).getD
      (request.Spending.length - 1) (num 0) = num (r - s) := by
    rw [cashDiff_eq_map, List.getD_eq_getElem?_getD, List.getElem?_map,
      List.getElem?_range (by omega)]
    simp only [Option.map_some', Option.getD_some]
    rw [hr, hs]
    rfl
  refine ⟨?_, ?_, hlast, ?_⟩
  · exact resolveIRR_valid eig request _ _ hcode hlen h2 rfl rfl
  · simp [cashDiff_eq_map]
  · rw [hlast]
    simp [F64.eq, sub_eq_zero]

/-- C9 amended, at spending 100, 0 and income 0, 110 with a routine that always fails. -/
theorem last_difference_nonzero_iff_witness :
    (cashDiff [num 100, num 0] [num 0, num 110] 2).getD 1 (num 0) = num (110 - 0) :=
  (last_difference_nonzero_iff (fun _ => none)
    (IRRRequest.mk [num 100, num 0] [num 0, num 110] "resolve") 0 110
    rfl rfl (by decide) rfl rfl).2.2.1

/-- C7: for spending `s, 0` and income `0, r` with `0 < s < r`, and an eigenvalue routine
that returns the single entry of a 1 by 1 matrix as a real eigenvalue, the differences
are `-s, r`, the companion matrix is the 1 by 1 matrix `s / r`, the only real root is
`s / r`, which lies strictly between 0 and 1, and the handler answers with status 0 and
the rate `((r - s) / s) * 100`. -/
theorem two_period_rate (eig : EigenSolver) (s r : ℚ) (hs : 0 < s) (hsr : s < r)
    (heig : ∀ m : Dense, m.rows = 1 → m.cols = 1 →
      eig m = some [⟨m.entry 0 0, num 0⟩]) :
    cashDiff [num s, num 0] [num 0, num r] 2 = [num (-s), num r] ∧
    (companion [num (-s), num r] 1).rows = 1 ∧ (companion [num (-s), num r] 1).cols = 1 ∧
    (companion [num (-s), num r] 1).entry 0 0 = num (s / r) ∧
    RealRoots eig 1 [num (-s), num r] = Outcome.ok [num (s / r)] ∧
    (0 < s / r ∧ s / r < 1) ∧
    extractIRR [num (s / r)] = num ((r - s) / s * 100) ∧
    resolveIRR eig (IRRRequest.mk [num s, num 0] [num 0, num r] "resolve")
      = Outcome.ok (Reply.envelope 200 ⟨0, num ((r - s) / s * 100), ""⟩) := by
  have hr0 : 0 < r := lt_trans hs hsr
  have hrne : r ≠ 0 := ne_of_gt hr0
  have hsne : s ≠ 0 := ne_of_gt hs
  have hpos : 0 < s / r := div_pos hs hr0
  have hlt : s / r < 1 := (div_lt_one hr0).mpr hsr
  have hdiff : cashDiff [num s, num 0] [num 0, num r] 2 = [num (-s), num r] := by
    simp [cashDiff_eq_map, List.range_succ, F64.sub]
  have hrows : (companion [num (-s), num r] 1).rows = 1 := companion_rows _ _
  have hcols : (companion [num (-s), num r] 1).cols = 1 := companion_cols _ _
  have hentry : (companion [num (-s), num r] 1).entry 0 0 = num (s / r) := by
    rw [companion_entry]
    simp [F64.neg, F64.div, hrne]
  have hroots : RealRoots eig 1 [num (-s), num r] = Outcome.ok [num (s / r)] := by
    have hfind : findPolynomialRoots eig [num (-s), num r]
        = Outcome.ok [⟨num (s / r), num 0⟩] := by
      simp [findPolynomialRoots, heig _ hrows hcols, hentry]
    rw [RealRoots_of_ok eig 1 _ _ (by norm_num) (by norm_num) hfind, keepReal_eq_filter]
    simp
  have hsel : selectRoot [num (s / r)] = num (s / r) := by
    simp [selectRoot, F64.ge, F64.lt, le_of_lt hpos, hlt]
  have hirr : extractIRR [num (s / r)] = num ((r - s) / s * 100) := by
    rw [extractIRR, hsel, GetIRR_num _ (ne_of_gt hpos)]
    congr 1
    field_simp
  refine ⟨hdiff, hrows, hcols, hentry, hroots, ⟨hpos, hlt⟩, hirr, ?_⟩
  have hirr2 : GetIRR (selectRoot [num (s / r)]) = num ((r - s) / s * 100) := hirr
  rw [resolveIRR_valid eig (IRRRequest.mk [num s, num 0] [num 0, num r] "resolve") 1
    [num (-s), num r] rfl rfl (Nat.le_refl 2) (by norm_num) hdiff, hroots]
  simp only
  rw [respondIRR_num _ _ hirr2]

/-- C7, at `s = 100` and `r = 110` with the routine that reads the entry of a 1 by 1
matrix: the handler answers with the rate 10. -/
theorem two_period_rate_witness :
    resolveIRR (fun m => some [⟨m.entry 0 0, num 0⟩])
        (IRRRequest.mk [num 100, num 0] [num 0, num 110] "resolve")
      = Outcome.ok (Reply.envelope 200 ⟨0, num 10, ""⟩) :=
  ((two_period_rate (fun m => some [⟨m.entry 0 0, num 0⟩]) 100 110 (by norm_num)
    (by norm_num) (fun _ _ _ => rfl)).2.2.2.2.2.2.2).trans (by norm_num)

/-! ## Rounding to float64 -/

theorem roundHalfEven_intCast (n : ℤ) : Rounded.roundHalfEven (n : ℚ) = n := by
  unfold Rounded.roundHalfEven
  simp

theorem roundHalfEven_le (q : ℚ) (n : ℤ) (h : q < n + 1 / 2) :
    Rounded.roundHalfEven q ≤ n := by
  have hf := Int.floor_le q
  unfold Rounded.roundHalfEven
  split_ifs with h1 h2 h3
  · by_contra hc
    have h4 : n + 1 ≤ ⌊q⌋ := by omega
    have h5 : ((n : ℚ) + 1 ≤ ⌊q⌋) := by exact_mod_cast h4
    linarith
  · by_contra hc
    have h4 : n ≤ ⌊q⌋ := by omega
    have h5 : ((n : ℚ) ≤ ⌊q⌋) := by exact_mod_cast h4
    linarith
  · by_contra hc
    have h4 : n + 1 ≤ ⌊q⌋ := by omega
    have h5 : ((n : ℚ) + 1 ≤ ⌊q⌋) := by exact_mod_cast h4
    linarith
  · by_contra hc
    have h4 : n ≤ ⌊q⌋ := by omega
    have h5 : ((n : ℚ) ≤ ⌊q⌋) := by exact_mod_cast h4
    linarith

theorem le_roundHalfEven (q : ℚ) (n : ℤ) (h : (n : ℚ) ≤ q) :
    n ≤ Rounded.roundHalfEven q := by
  have hf : n ≤ ⌊q⌋ := Int.le_floor.mpr h
  unfold Rounded.roundHalfEven
  split_ifs <;> omega

theorem roundHalfEven_odd_up (q : ℚ) (n : ℤ) (hodd : n % 2 = 1) (h1 : (n : ℚ) + 1 / 2 ≤ q)
    (h2 : q < n + 1) : Rounded.roundHalfEven q = n + 1 := by
  have hfl : ⌊q⌋ = n := by
    rw [Int.floor_eq_iff]
    constructor <;> linarith
  unfold Rounded.roundHalfEven
  rw [hfl]
  split_ifs with a b c
  · linarith
  · rfl
  · omega
  · rfl

theorem ulpExponent_eq (q : ℚ) (e : ℤ) (he : -1022 ≤ e) (h1 : (2 : ℚ) ^ e ≤ |q|)
    (h2 : |q| < 2 ^ (e + 1)) : Rounded.ulpExponent q = e - 52 := by
  have hpos : 0 < |q| := lt_of_lt_of_le (by positivity) h1
  have ha : e ≤ Int.log 2 |q| :=
    (Int.zpow_le_iff_le_log (by norm_num) hpos).mp (by exact_mod_cast h1)
  have hb : Int.log 2 |q| < e + 1 :=
    (Int.lt_zpow_iff_log_lt (by norm_num) hpos).mp (by exact_mod_cast h2)
  unfold Rounded.ulpExponent
  have hlog : Int.log 2 |q| = e := by omega
  rw [hlog, max_eq_left he]

theorem toFloat64_eq (q : ℚ) (u : ℤ) (r : ℚ) (hu : Rounded.ulpExponent q = u)
    (hr : (Rounded.roundHalfEven (q / 2 ^ u) : ℚ) * 2 ^ u = r)
    (hlt : r < 2 ^ 1024) (hgt : -2 ^ 1024 < r) : Rounded.toFloat64 q = num r := by
  unfold Rounded.toFloat64
  simp only [hu, hr]
  rw [if_neg (not_le.mpr hlt), if_neg (not_le.mpr hgt)]

theorem toFloat64_zero : Rounded.toFloat64 0 = num 0 := by
  refine toFloat64_eq 0 (Rounded.ulpExponent 0) 0 rfl ?_ (by positivity) (by norm_num)
  rw [zero_div]
  have h := roundHalfEven_intCast 0
  rw [Int.cast_zero] at h
  rw [h, Int.cast_zero, zero_mul]

theorem toFloat64_one : Rounded.toFloat64 1 = num 1 := by
  have hu : Rounded.ulpExponent 1 = -52 :=
    ulpExponent_eq 1 0 (by norm_num) (by norm_num) (by norm_num)
  refine toFloat64_eq 1 (-52) 1 hu ?_ (by norm_num) (by norm_num)
  have hm : (1 : ℚ) / 2 ^ (-52 : ℤ) = ((2 ^ 52 : ℤ) : ℚ) := by norm_num
  rw [hm, roundHalfEven_intCast]
  norm_num

theorem toFloat64_near_one (y : ℚ) (h1 : 1 - 2 ^ (-54 : ℤ) ≤ y) (h2 : y < 1) :
    Rounded.toFloat64 y = num 1 := by
  have hy : 0 < y := lt_of_lt_of_le (by norm_num) h1
  have hu : Rounded.ulpExponent y = -53 := by
    refine ulpExponent_eq y (-1) (by norm_num) ?_ ?_
    · rw [abs_of_pos hy]
      exact le_trans (by norm_num) h1
    · rw [abs_of_pos hy]
      exact lt_of_lt_of_le h2 (by norm_num)
  refine toFloat64_eq y (-53) 1 hu ?_ (by norm_num) (by norm_num)
  have hdiv : y / 2 ^ (-53 : ℤ) = y * 2 ^ 53 := by
    rw [zpow_neg, div_inv_eq_mul]
    norm_cast
  have hup : Rounded.roundHalfEven (y * 2 ^ 53) = (2 ^ 53 - 1) + 1 := by
    refine roundHalfEven_odd_up _ (2 ^ 53 - 1) (by norm_num) ?_ ?_
    · have h3 : (1 - 2 ^ (-54 : ℤ)) * 2 ^ 53 ≤ y * 2 ^ 53 :=
        mul_le_mul_of_nonneg_right h1 (by positivity)
      refine le_trans ?_ h3
      norm_num
    · have h3 : y * 2 ^ 53 < 1 * 2 ^ 53 := mul_lt_mul_of_pos_right h2 (by positivity)
      refine lt_of_lt_of_le h3 ?_
      norm_num
  rw [hdiv, hup]
  norm_num

theorem toFloat64_of_pos (y : ℚ) (hy : 0 < y) (hbig : Int.log 2 y < 1023) :
    ∃ r : ℚ, Rounded.toFloat64 y = num r ∧ 0 ≤ r ∧
      r ≤ 2 ^ (max (Int.log 2 y) (-1022) + 1) ∧
      (-1022 ≤ Int.log 2 y → 2 ^ Int.log 2 y ≤ r) := by
  have hu : Rounded.ulpExponent y = max (Int.log 2 y) (-1022) - 52 := by
    unfold Rounded.ulpExponent
    rw [abs_of_pos hy]
  generalize he : max (Int.log 2 y) (-1022) = e at hu
  have hLe : Int.log 2 y ≤ e := by rw [← he]; exact le_max_left _ _
  have he2 : e < 1023 := by rw [← he]; exact max_lt hbig (by norm_num)
  have hupos : (0 : ℚ) < 2 ^ (e - 52) := by positivity
  have hylt : y < 2 ^ (e + 1) := by
    have h := Int.lt_zpow_succ_log_self (by norm_num : 1 < 2) y
    have h2 : ((2 : ℕ) : ℚ) ^ (Int.log 2 y + 1) ≤ ((2 : ℕ) : ℚ) ^ (e + 1) :=
      zpow_le_zpow_right₀ (by norm_num) (by omega)
    exact_mod_cast lt_of_lt_of_le h h2
  have hsplit : (2 : ℚ) ^ (e + 1) = 2 ^ 53 * 2 ^ (e - 52) := by
    rw [show e + 1 = 53 + (e - 52) by ring, zpow_add₀ (by norm_num)]
    norm_cast
  have hm : y / 2 ^ (e - 52) < ((2 ^ 53 : ℤ) : ℚ) + 1 / 2 := by
    have h : y / 2 ^ (e - 52) < 2 ^ 53 := by
      rw [div_lt_iff₀ hupos, ← hsplit]
      exact hylt
    have h2 : (((2 : ℤ) ^ 53 : ℤ) : ℚ) = 2 ^ 53 := by norm_cast
    rw [h2]
    linarith
  have hhi := roundHalfEven_le _ _ hm
  have hlo : (0 : ℤ) ≤ Rounded.roundHalfEven (y / 2 ^ (e - 52)) :=
    le_roundHalfEven _ 0 (by rw [Int.cast_zero]; exact le_of_lt (div_pos hy hupos))
  have hhiQ : (Rounded.roundHalfEven (y / 2 ^ (e - 52)) : ℚ) ≤ 2 ^ 53 := by
    exact_mod_cast hhi
  have hloQ : (0 : ℚ) ≤ (Rounded.roundHalfEven (y / 2 ^ (e - 52)) : ℚ) := by
    exact_mod_cast hlo
  have hr0 : 0 ≤ (Rounded.roundHalfEven (y / 2 ^ (e - 52)) : ℚ) * 2 ^ (e - 52) :=
    mul_nonneg hloQ (le_of_lt hupos)
  have hr1 : (Rounded.roundHalfEven (y / 2 ^ (e - 52)) : ℚ) * 2 ^ (e - 52) ≤ 2 ^ (e + 1) := by
    rw [hsplit]
    exact mul_le_mul_of_nonneg_right hhiQ (le_of_lt hupos)
  have hfin : (2 : ℚ) ^ (e + 1) ≤ 2 ^ (1023 : ℤ) :=
    zpow_le_zpow_right₀ (by norm_num) (by omega)
  refine ⟨_, toFloat64_eq y (e - 52) _ hu rfl ?_ ?_, hr0, hr1, ?_⟩
  · refine lt_of_le_of_lt (le_trans hr1 hfin) ?_
    norm_num
  · refine lt_of_lt_of_le ?_ hr0
    norm_num
  · intro hnormal
    have heL : e = Int.log 2 y := by rw [← he]; exact max_eq_left hnormal
    have hge : ((2 : ℕ) : ℚ) ^ Int.log 2 y ≤ y := Int.zpow_log_le_self (by norm_num) hy
    have hge2 : (2 : ℚ) ^ e ≤ y := by rw [heL]; exact_mod_cast hge
    have hsplit2 : (2 : ℚ) ^ e = 2 ^ 52 * 2 ^ (e - 52) := by
      rw [show e = 52 + (e - 52) by ring, zpow_add₀ (by norm_num)]
      norm_cast
      simp
    have hm2 : (((2 : ℤ) ^ 52 : ℤ) : ℚ) ≤ y / 2 ^ (e - 52) := by
      rw [le_div_iff₀ hupos]
      have h2 : (((2 : ℤ) ^ 52 : ℤ) : ℚ) = 2 ^ 52 := by norm_cast
      rw [h2, ← hsplit2]
      exact hge2
    have hlo2 := le_roundHalfEven _ _ hm2
    have hlo2Q : (2 : ℚ) ^ 52 ≤ (Rounded.roundHalfEven (y / 2 ^ (e - 52)) : ℚ) := by
      exact_mod_cast hlo2
    rw [← heL, hsplit2]
    exact mul_le_mul_of_nonneg_right hlo2Q (le_of_lt hupos)

theorem toFloat64_below_one (y : ℚ) (h0 : 0 < y) (h1 : y < 1 - 2 ^ (-54 : ℤ)) :
    ∃ r : ℚ, Rounded.toFloat64 y = num r ∧ 0 ≤ r ∧ r ≤ 1 - 2 ^ (-53 : ℤ) := by
  by_cases hhalf : (2 : ℚ) ^ (-1 : ℤ) ≤ y
  · have hu : Rounded.ulpExponent y = -53 := by
      refine ulpExponent_eq y (-1) (by norm_num) ?_ ?_
      · rw [abs_of_pos h0]; exact hhalf
      · rw [abs_of_pos h0]
        exact lt_trans h1 (by norm_num)
    have hdiv : y / 2 ^ (-53 : ℤ) = y * 2 ^ 53 := by
      rw [zpow_neg, div_inv_eq_mul]
      norm_cast
    have hm : y * 2 ^ 53 < ((2 ^ 53 - 1 : ℤ) : ℚ) + 1 / 2 := by
      have h3 : y * 2 ^ 53 < (1 - 2 ^ (-54 : ℤ)) * 2 ^ 53 :=
        mul_lt_mul_of_pos_right h1 (by positivity)
      refine lt_of_lt_of_le h3 ?_
      norm_num
    have hhi := roundHalfEven_le _ _ hm
    have hlo : (0 : ℤ) ≤ Rounded.roundHalfEven (y * 2 ^ 53) :=
      le_roundHalfEven _ 0 (by rw [Int.cast_zero]; positivity)
    have hhiQ : (Rounded.roundHalfEven (y * 2 ^ 53) : ℚ) ≤ 2 ^ 53 - 1 := by
      exact_mod_cast hhi
    have hloQ : (0 : ℚ) ≤ (Rounded.roundHalfEven (y * 2 ^ 53) : ℚ) := by
      exact_mod_cast hlo
    have hr0 : 0 ≤ (Rounded.roundHalfEven (y * 2 ^ 53) : ℚ) * 2 ^ (-53 : ℤ) :=
      mul_nonneg hloQ (by positivity)
    have hr1 : (Rounded.roundHalfEven (y * 2 ^ 53) : ℚ) * 2 ^ (-53 : ℤ)
        ≤ 1 - 2 ^ (-53 : ℤ) := by
      have h4 : (Rounded.roundHalfEven (y * 2 ^ 53) : ℚ) * 2 ^ (-53 : ℤ)
          ≤ (2 ^ 53 - 1) * 2 ^ (-53 : ℤ) :=
        mul_le_mul_of_nonneg_right hhiQ (by positivity)
      refine le_trans h4 ?_
      norm_num
    refine ⟨_, toFloat64_eq y (-53) _ hu (by rw [hdiv]) ?_ ?_, hr0, hr1⟩
    · exact lt_of_le_of_lt hr1 (by norm_num)
    · exact lt_of_lt_of_le (by norm_num) hr0
  · have hlt : y < 2 ^ (-1 : ℤ) := not_le.mp hhalf
    have hlog : Int.log 2 y < -1 :=
      (Int.lt_zpow_iff_log_lt (by norm_num) h0).mp (by exact_mod_cast hlt)
    obtain ⟨r, hr, hr0, hr1, _⟩ := toFloat64_of_pos y h0 (by omega)
    refine ⟨r, hr, hr0, le_trans hr1 ?_⟩
    have hexp : max (Int.log 2 y) (-1022) + 1 ≤ -1 := by
      have := max_le (le_of_lt hlog) (by norm_num : (-1022 : ℤ) ≤ -1)
      omega
    have h5 : (2 : ℚ) ^ (max (Int.log 2 y) (-1022) + 1) ≤ 2 ^ (-1 : ℤ) :=
      zpow_le_zpow_right₀ (by norm_num) hexp
    exact le_trans h5 (by norm_num)

theorem toFloat64_pos (x : ℚ) (h0 : 2 ^ (-53 : ℤ) ≤ x) (h1 : x ≤ 1) :
    ∃ r : ℚ, Rounded.toFloat64 x = num r ∧ 0 < r := by
  have hx : 0 < x := lt_of_lt_of_le (by positivity) h0
  have hlo : -53 ≤ Int.log 2 x :=
    (Int.zpow_le_iff_le_log (by norm_num) hx).mp (by exact_mod_cast h0)
  have hhi : Int.log 2 x < 1 :=
    (Int.lt_zpow_iff_log_lt (by norm_num) hx).mp
      (by exact_mod_cast lt_of_le_of_lt h1 (by norm_num : (1 : ℚ) < 2 ^ (1 : ℤ)))
  obtain ⟨r, hr, _, _, hr2⟩ := toFloat64_of_pos x hx (by omega)
  exact ⟨r, hr, lt_of_lt_of_le (by positivity) (hr2 (by omega))⟩

theorem rounded_sub_num (a b : ℚ) :
    Rounded.sub (num a) (num b) = Rounded.toFloat64 (a - b) := rfl

theorem irrDenominator_tiny (q : ℚ) (h0 : 0 ≤ q) (h1 : q ≤ 2 ^ (-54 : ℤ)) :
    Rounded.sub (num 1) (num q) = num 1 ∧ Rounded.irrDenominator (num q) = num 0 := by
  have hd : Rounded.sub (num 1) (num q) = num 1 := by
    rw [rounded_sub_num]
    rcases eq_or_lt_of_le h0 with h | h
    · rw [← h, sub_zero]; exact toFloat64_one
    · exact toFloat64_near_one _ (by linarith) (by linarith)
  refine ⟨hd, ?_⟩
  unfold Rounded.irrDenominator
  rw [hd, rounded_sub_num, sub_self]
  exact toFloat64_zero

theorem irrDenominator_not_tiny (q : ℚ) (h0 : 2 ^ (-54 : ℤ) < q) (h1 : q < 1) :
    ∃ r : ℚ, Rounded.irrDenominator (num q) = num r ∧ 0 < r := by
  obtain ⟨d, hd, hd0, hd1⟩ := toFloat64_below_one (1 - q) (by linarith) (by linarith)
  obtain ⟨r, hr, hr0⟩ := toFloat64_pos (1 - d) (by linarith) (by linarith)
  refine ⟨r, ?_, hr0⟩
  unfold Rounded.irrDenominator
  rw [rounded_sub_num, hd, rounded_sub_num, hr]

theorem rounded_GetIRR_tiny (q : ℚ) (h0 : 0 < q) (h1 : q ≤ 2 ^ (-54 : ℤ)) :
    Rounded.GetIRR (num q) = pinf := by
  obtain ⟨hd, hden⟩ := irrDenominator_tiny q (le_of_lt h0) h1
  unfold Rounded.irrDenominator at hden
  rw [hd] at hden
  unfold Rounded.GetIRR
  have hq : F64.eq (num q) (num 0) = false := by simp [F64.eq, ne_of_gt h0]
  simp only [hq, hd, hden]
  simp [Rounded.div, Rounded.mul, Rounded.rounded, F64.div, F64.mul, F64.signedInf]

theorem irrDenominator_eq_zero_iff (q : ℚ) (h0 : 0 ≤ q) (h1 : q < 1) :
    F64.eq (Rounded.irrDenominator (num q)) (num 0) = true ↔ q ≤ 2 ^ (-54 : ℤ) := by
  constructor
  · intro hz
    by_contra hq
    obtain ⟨r, hr, hr0⟩ := irrDenominator_not_tiny q (not_le.mp hq) h1
    rw [hr] at hz
    simp [F64.eq, ne_of_gt hr0] at hz
  · intro hq
    rw [(irrDenominator_tiny q h0 hq).2]
    simp [F64.eq]

/-! ## Claim on the denominator of GetIRR -/

/-- C10, refuted as stated: in `float64` the denominator `1 - d` is 1 at `v = 1`, where
`GetIRR` returns 0. It is zero at `v = 2 ^ (-60)`, a `float64` value below 1 that the
request with spending 1, 0 and income 0, `2 ^ 60` leads to and that the selection yields:
there `d = 1 - v` rounds to 1, and `GetIRR` divides by zero and returns plus infinity. -/
theorem irrDenominator_zero_reached :
    Rounded.irrDenominator (num 1) = num 1 ∧ Rounded.GetIRR (num 1) = num 0 ∧
    cashDiff [num 1, num 0] [num 0, num (2 ^ 60)] 2 = [num (-1), num (2 ^ 60)] ∧
    (companion [num (-1), num (2 ^ 60)] 1).entry 0 0 = num (2 ^ (-60 : ℤ)) ∧
    Rounded.toFloat64 (2 ^ (-60 : ℤ)) = num (2 ^ (-60 : ℤ)) ∧
    selectRoot [num (2 ^ (-60 : ℤ))] = num (2 ^ (-60 : ℤ)) ∧
    Rounded.sub (num 1) (num (2 ^ (-60 : ℤ))) = num 1 ∧
    Rounded.irrDenominator (num (2 ^ (-60 : ℤ))) = num 0 ∧
    Rounded.GetIRR (num (2 ^ (-60 : ℤ))) = pinf := by
  have htiny := irrDenominator_tiny (2 ^ (-60 : ℤ)) (by positivity) (by norm_num)
  refine ⟨?_, ?_, ?_, ?_, ?_, ?_, htiny.1, htiny.2, ?_⟩
  · unfold Rounded.irrDenominator
    rw [rounded_sub_num, sub_self, toFloat64_zero, rounded_sub_num, sub_zero, toFloat64_one]
  · have hd : Rounded.sub (num 1) (num 1) = num 0 := by
      rw [rounded_sub_num, sub_self, toFloat64_zero]
    have hden : Rounded.sub (num 1) (num 0) = num 1 := by
      rw [rounded_sub_num, sub_zero, toFloat64_one]
    unfold Rounded.GetIRR
    have hq : F64.eq (num 1) (num 0) = false := by simp [F64.eq]
    simp only [hq, hd, hden]
    simp [Rounded.div, Rounded.mul, Rounded.rounded, F64.div, F64.mul, toFloat64_zero]
  · simp [cashDiff_eq_map, List.range_succ, F64.sub]
  · rw [companion_entry]
    simp [F64.neg, F64.div]
    norm_num
  · have habs : |(2 : ℚ) ^ (-60 : ℤ)| = 2 ^ (-60 : ℤ) := abs_of_pos (by positivity)
    have hu : Rounded.ulpExponent (2 ^ (-60 : ℤ)) = -60 - 52 :=
      ulpExponent_eq _ (-60) (by norm_num) (by rw [habs]) (by rw [habs]; norm_num)
    refine toFloat64_eq _ _ _ hu ?_ (by norm_num) (by norm_num)
    have hm : (2 : ℚ) ^ (-60 : ℤ) / 2 ^ (-60 - 52 : ℤ) = ((2 ^ 52 : ℤ) : ℚ) := by norm_num
    rw [hm, roundHalfEven_intCast]
    norm_num
  · simp [selectRoot, F64.ge, F64.lt]
    norm_num
  · exact rounded_GetIRR_tiny _ (by positivity) (by norm_num)

/-- C10, amended: the root `v` that the selection yields is a number with `0 ≤ v < 1`, and
for it the `float64` denominator `1 - d` of `GetIRR`, where `d = 1 - v`, is zero exactly
when `d` is 1, which is exactly when `v ≤ 2 ^ (-54)`. At `v = 0` `GetIRR` returns
not-a-number before it divides; for `0 < v ≤ 2 ^ (-54)` it divides by zero and returns plus
infinity, so the zero denominator is reached by selected roots. -/
theorem irrDenominator_zero_iff_tiny (roots : List F64) :
    ∃ v : ℚ, selectRoot roots = num v ∧ 0 ≤ v ∧ v < 1 ∧
      (F64.eq (Rounded.irrDenominator (selectRoot roots)) (num 0) = true ↔
        Rounded.sub (num 1) (selectRoot roots) = num 1) ∧
      (F64.eq (Rounded.irrDenominator (selectRoot roots)) (num 0) = true ↔
        v ≤ 2 ^ (-54 : ℤ)) ∧
      (v = 0 → Rounded.GetIRR (selectRoot roots) = nan) ∧
      (0 < v → v ≤ 2 ^ (-54 : ℤ) → Rounded.GetIRR (selectRoot roots) = pinf) := by
  have hsel : ∃ v : ℚ, selectRoot roots = num v ∧ 0 ≤ v ∧ v < 1 := by
    rcases selectRoot_cases roots with ⟨_, h⟩ | ⟨q, _, h, h0, h1⟩
    · exact ⟨0, h, le_refl 0, by norm_num⟩
    · exact ⟨q, h, h0, h1⟩
  obtain ⟨v, hv, h0, h1⟩ := hsel
  have hiff := irrDenominator_eq_zero_iff v h0 h1
  refine ⟨v, hv, h0, h1, ?_, ?_, ?_, ?_⟩
  · rw [hv, hiff]
    constructor
    · intro hq
      exact (irrDenominator_tiny v h0 hq).1
    · intro hd
      rw [← hiff]
      unfold Rounded.irrDenominator
      rw [hd, rounded_sub_num, sub_self, toFloat64_zero]
      simp [F64.eq]
  · rw [hv]
    exact hiff
  · intro hz
    rw [hv, hz]
    simp [Rounded.GetIRR, F64.eq]
  · intro hpos hq
    rw [hv]
    exact rounded_GetIRR_tiny v hpos hq

open Polynomial Matrix

/-! ## The characteristic polynomial of the companion matrix -/

theorem companionOf_apply {R : Type} [Ring R] (n : ℕ) (a : ℕ → R) (i j : Fin n) :
    companionOf n a i j = if (j : ℕ) + 1 = n then -a i else if (i : ℕ) = j + 1 then 1 else 0 :=
  rfl

theorem charmatrix_companionOf_succ {R : Type} [CommRing R] (m : ℕ) (a : ℕ → R) :
    (charmatrix (companionOf (m + 2) a)).submatrix Fin.succ Fin.succ =
      charmatrix (companionOf (m + 1) (fun i => a (i + 1))) := by
  ext i j
  simp only [submatrix_apply, charmatrix_apply, companionOf_apply, diagonal_apply,
    Fin.succ_inj, Fin.val_succ]
  have h1 : ((j : ℕ) + 1 + 1 = m + 2) ↔ ((j : ℕ) + 1 = m + 1) := by omega
  have h2 : ((i : ℕ) + 1 = (j : ℕ) + 1 + 1) ↔ ((i : ℕ) = (j : ℕ) + 1) := by omega
  simp only [h1, h2]

theorem charmatrix_companionOf_corner {R : Type} [CommRing R] (m : ℕ) (a : ℕ → R) :
    ((charmatrix (companionOf (m + 2) a)).submatrix Fin.succ Fin.castSucc).det
      = (-1) ^ (m + 1) := by
  have htri : ((charmatrix (companionOf (m + 2) a)).submatrix
      Fin.succ Fin.castSucc).BlockTriangular id := by
    intro i j hji
    have hji' : (j : ℕ) < (i : ℕ) := hji
    have hj : (j : ℕ) < m + 1 := j.isLt
    have hne : (Fin.succ i) ≠ (Fin.castSucc j) := by
      intro h
      have := congrArg Fin.val h
      simp at this
      omega
    rw [submatrix_apply, charmatrix_apply_ne _ _ _ hne, companionOf_apply]
    have h1 : ¬ (((Fin.castSucc j : Fin (m + 2)) : ℕ) + 1 = m + 2) := by
      simp; omega
    have h2 : ¬ (((Fin.succ i : Fin (m + 2)) : ℕ) = ((Fin.castSucc j : Fin (m + 2)) : ℕ) + 1) := by
      simp; omega
    rw [if_neg h1, if_neg h2]
    simp
  rw [det_of_upperTriangular htri]
  have hdiag : ∀ i : Fin (m + 1),
      ((charmatrix (companionOf (m + 2) a)).submatrix Fin.succ Fin.castSucc) i i = -1 := by
    intro i
    have hne : (Fin.succ i) ≠ (Fin.castSucc i) := by
      intro h
      have := congrArg Fin.val h
      simp at this
    rw [submatrix_apply, charmatrix_apply_ne _ _ _ hne, companionOf_apply]
    have h1 : ¬ (((Fin.castSucc i : Fin (m + 2)) : ℕ) + 1 = m + 2) := by
      have := i.isLt
      simp; omega
    have h2 : ((Fin.succ i : Fin (m + 2)) : ℕ) = ((Fin.castSucc i : Fin (m + 2)) : ℕ) + 1 := by
      simp
    rw [if_neg h1, if_pos h2]
    simp
  rw [Finset.prod_congr rfl (fun i _ => hdiag i)]
  simp

theorem charpoly_companionOf {R : Type} [CommRing R] (n : ℕ) (a : ℕ → R) :
    (companionOf n a).charpoly = X ^ n + ∑ i in Finset.range n, C (a i) * X ^ i := by
  induction n generalizing a with
  | zero => simp [Matrix.charpoly]
  | succ n ih =>
    cases n with
    | zero =>
      show (charmatrix (companionOf 1 a)).det = _
      rw [det_fin_one]
      simp [charmatrix_apply, companionOf_apply]
    | succ m =>
      have hmid : ∀ k : Fin m,
          charmatrix (companionOf (m + 2) a) 0 (Fin.succ (Fin.castSucc k)) = 0 := by
        intro k
        have hne : (0 : Fin (m + 2)) ≠ Fin.succ (Fin.castSucc k) := (Fin.succ_ne_zero _).symm
        rw [charmatrix_apply_ne _ _ _ hne, companionOf_apply]
        have hk := k.isLt
        have h1 : ¬ (((Fin.succ (Fin.castSucc k) : Fin (m + 2)) : ℕ) + 1 = m + 2) := by
          simp; omega
        have h2 : ¬ (((0 : Fin (m + 2)) : ℕ)
            = ((Fin.succ (Fin.castSucc k) : Fin (m + 2)) : ℕ) + 1) := by
          simp
        rw [if_neg h1, if_neg h2]
        simp
      have hfirst : charmatrix (companionOf (m + 2) a) 0 0 = X := by
        rw [charmatrix_apply_eq, companionOf_apply]
        simp
      have hlast : charmatrix (companionOf (m + 2) a) 0 (Fin.succ (Fin.last m)) = C (a 0) := by
        have hne : (0 : Fin (m + 2)) ≠ Fin.succ (Fin.last m) := (Fin.succ_ne_zero _).symm
        rw [charmatrix_apply_ne _ _ _ hne, companionOf_apply]
        simp
      rw [Matrix.charpoly, det_succ_row_zero, Fin.sum_univ_succ, Fin.sum_univ_castSucc]
      simp only [hmid, hfirst, hlast, mul_zero, zero_mul, Finset.sum_const_zero, zero_add,
        Fin.succAbove_zero, Fin.val_zero, pow_zero, one_mul]
      have hl : (Fin.succ (Fin.last m) : Fin (m + 2)) = Fin.last (m + 1) := Fin.succ_last m
      have hih := ih (fun i => a (i + 1))
      rw [Matrix.charpoly] at hih
      rw [hl, Fin.succAbove_last, charmatrix_companionOf_succ, charmatrix_companionOf_corner, hih,
        Fin.val_last]
      have hsign : ((-1 : R[X]) ^ (m + 1)) * C (a 0) * (-1) ^ (m + 1) = C (a 0) := by
        rw [mul_comm _ (C (a 0)), mul_assoc, ← mul_pow]
        simp
      have hsum : X * ∑ i in Finset.range (m + 1), C (a (i + 1)) * X ^ i
          = ∑ i in Finset.range (m + 1), C (a (i + 1)) * X ^ (i + 1) := by
        rw [Finset.mul_sum]
        exact Finset.sum_congr rfl (fun i _ => by ring)
      rw [mul_add, hsum, hsign, Finset.sum_range_succ' _ (m + 1)]
      ring

theorem eval_charpoly_eq_det {K : Type} [Field K] (n : ℕ) (M : Matrix (Fin n) (Fin n) K)
    (x : K) : M.charpoly.eval x = (Matrix.scalar (Fin n) x - M).det := by
  rw [Matrix.charpoly, eval_det, matPolyEquiv_charmatrix]
  simp

theorem exists_eigenvector_iff {K : Type} [Field K] (n : ℕ) (M : Matrix (Fin n) (Fin n) K)
    (x : K) : (∃ v : Fin n → K, v ≠ 0 ∧ M.mulVec v = x • v) ↔ M.charpoly.eval x = 0 := by
  rw [eval_charpoly_eq_det, ← Matrix.exists_mulVec_eq_zero_iff]
  refine exists_congr fun v => and_congr Iff.rfl ?_
  rw [Matrix.sub_mulVec, sub_eq_zero]
  have : (Matrix.scalar (Fin n) x).mulVec v = x • v := by
    ext i
    simp [Matrix.mulVec, Matrix.dotProduct, Matrix.scalar_apply, Matrix.diagonal_apply]
  rw [this]
  exact eq_comm

theorem getD_map_num (c : List ℚ) (k : ℕ) :
    (c.map num).getD k (num 0) = num (c.getD k 0) := by
  exact List.getD_map _ _ _

theorem companion_entry_num (c : List ℚ) (n : ℕ) (hlead : c.getD n 0 ≠ 0) (i j : Fin n) :
    (companion (c.map num) n).entry i j
      = num (companionOf n (fun k => c.getD k 0 / c.getD n 0) i j) := by
  have hi := i.isLt
  have hj := j.isLt
  rw [companion_entry, companionOf_apply, getD_map_num, getD_map_num]
  by_cases h1 : (j : ℕ) + 1 = n
  · have h : (i : ℕ) < n ∧ (j : ℕ) = n - 1 := ⟨hi, by omega⟩
    rw [if_pos h, if_pos h1]
    simp only [F64.neg, F64.div, if_neg hlead, neg_div]
  · have h : ¬ ((i : ℕ) < n ∧ (j : ℕ) = n - 1) := by omega
    rw [if_neg h, if_neg h1]
    by_cases h2 : (i : ℕ) = j + 1
    · have h3 : (1 ≤ (i : ℕ) ∧ (i : ℕ) < n) ∧ (j : ℕ) = (i : ℕ) - 1 := by omega
      rw [if_pos h3, if_pos h2]
    · have h3 : ¬ ((1 ≤ (i : ℕ) ∧ (i : ℕ) < n) ∧ (j : ℕ) = (i : ℕ) - 1) := by omega
      rw [if_neg h3, if_neg h2]

theorem toMatrix_companion (c : List ℚ) (n : ℕ) (hlead : c.getD n 0 ≠ 0) :
    Dense.toMatrix (companion (c.map num) n) n
      = companionOf n (fun k => c.getD k 0 / c.getD n 0) := by
  ext i j
  show F64.toRat ((companion (c.map num) n).entry i j) = _
  rw [companion_entry_num c n hlead]
  rfl

theorem monic_scaling (c : List ℚ) (n : ℕ) (hlead : c.getD n 0 ≠ 0) :
    (X ^ n + ∑ i in Finset.range n, C (c.getD i 0 / c.getD n 0) * X ^ i : ℚ[X])
      = C (c.getD n 0)⁻¹ * ∑ i in Finset.range (n + 1), C (c.getD i 0) * X ^ i := by
  rw [Finset.sum_range_succ, mul_add, Finset.mul_sum, ← mul_assoc, ← C_mul,
    inv_mul_cancel₀ hlead, C_1, one_mul, add_comm]
  congr 1
  refine Finset.sum_congr rfl fun i _ => ?_
  rw [← mul_assoc, ← C_mul, div_eq_inv_mul]

theorem findPolynomialRoots_calls (eig : EigenSolver) (coeffs : List F64) (n : ℕ)
    (hn : 1 ≤ n) (hlen : coeffs.length = n + 1) :
    findPolynomialRoots eig coeffs =
      match eig (companion coeffs n) with
      | none => Outcome.error "eigenvalue decomposition failed"
      | some values => Outcome.ok values := by
  unfold findPolynomialRoots
  have h : ¬ ((coeffs.length : Int) - 1 ≤ 0) := by rw [hlen]; push_cast; omega
  have h2 : ((coeffs.length : Int) - 1).toNat = n := by rw [hlen]; push_cast; omega
  simp only [if_neg h, h2]

/-! ## Claim on the companion matrix -/

/-- C1: for a coefficient list `c[0..n]` of rationals with `n ≥ 1` and `c[n] ≠ 0`, the matrix
that `findPolynomialRoots` hands to the eigenvalue routine is the `n × n` matrix with ones
below the diagonal, last column `-c[i] / c[n]` and zeros elsewhere; its characteristic
polynomial is the monic polynomial `(c[0] + c[1] x + ... + c[n] x^n) / c[n]`; hence over a
field of characteristic zero, such as the real or the complex numbers, `x` is an eigenvalue
of that matrix exactly when it is a root of `c[0] + c[1] x + ... + c[n] x^n`. -/
theorem companion_charpoly (K : Type) [Field K] [CharZero K] (eig : EigenSolver)
    (c : List ℚ) (n : ℕ) (hn : 1 ≤ n) (hlen : c.length = n + 1) (hlead : c.getD n 0 ≠ 0) :
    (findPolynomialRoots eig (c.map num) =
      match eig (companion (c.map num) n) with
      | none => Outcome.error "eigenvalue decomposition failed"
      | some values => Outcome.ok values) ∧
    (companion (c.map num) n).rows = n ∧ (companion (c.map num) n).cols = n ∧
    (∀ i j : Fin n, (companion (c.map num) n).entry i j =
      num (if (j : ℕ) + 1 = n then -(c.getD i 0 / c.getD n 0)
        else if (i : ℕ) = j + 1 then 1 else 0)) ∧
    (Dense.toMatrix (companion (c.map num) n) n).charpoly =
      C (c.getD n 0)⁻¹ * ∑ i in Finset.range (n + 1), C (c.getD i 0) * X ^ i ∧
    (Dense.toMatrix (companion (c.map num) n) n).charpoly.Monic ∧
    ∀ x : K,
      (∃ v : Fin n → K, v ≠ 0 ∧
        ((Dense.toMatrix (companion (c.map num) n) n).map (fun q : ℚ => (q : K))).mulVec v
          = x • v) ↔
      ∑ i in Finset.range (n + 1), (c.getD i 0 : K) * x ^ i = 0 := by
  have hchar : (Dense.toMatrix (companion (c.map num) n) n).charpoly =
      C (c.getD n 0)⁻¹ * ∑ i in Finset.range (n + 1), C (c.getD i 0) * X ^ i := by
    rw [toMatrix_companion c n hlead, charpoly_companionOf, monic_scaling c n hlead]
  refine ⟨findPolynomialRoots_calls eig _ n hn (by rw [List.length_map, hlen]),
    companion_rows _ _, companion_cols _ _, fun i j => companion_entry_num c n hlead i j,
    hchar, Matrix.charpoly_monic _, ?_⟩
  intro x
  have hmap : (Dense.toMatrix (companion (c.map num) n) n).map (fun q : ℚ => (q : K))
      = (Dense.toMatrix (companion (c.map num) n) n).map (Rat.castHom K) := rfl
  have hcast : ((c.getD n 0 : ℚ) : K) ≠ 0 := by exact_mod_cast hlead
  rw [hmap, exists_eigenvector_iff, Matrix.charpoly_map, hchar, eval_map, eval₂_mul, eval₂_C,
    eval₂_finset_sum]
  simp only [eval₂_mul, eval₂_C, eval₂_pow, eval₂_X, eq_ratCast, Rat.cast_inv]
  rw [mul_eq_zero]
  constructor
  · rintro (h | h)
    · exact absurd (inv_eq_zero.mp h) hcast
    · exact h
  · exact fun h => Or.inr h

/-- C1, at the coefficients -100, 110 of a two-period flow: the 1 × 1 companion matrix has
the eigenvalue 10/11, the root of `-100 + 110 x`. -/
theorem companion_charpoly_witness :
    ∃ v : Fin 1 → ℝ, v ≠ 0 ∧
      ((Dense.toMatrix (companion ([-100, 110].map num) 1) 1).map
        (fun q : ℚ => (q : ℝ))).mulVec v = (10 / 11 : ℝ) • v :=
  ((companion_charpoly ℝ (fun _ => none) [-100, 110] 1 (Nat.le_refl 1) rfl
    (by norm_num)).2.2.2.2.2.2 (10 / 11)).mpr
    (by norm_num [Finset.sum_range_succ])

end ApiIrr
